import Mathlib

/-!
Shallow embedding of `src/tema7-queue-simulator/queue_simulator.py`:
a discrete-event simulator for an M/M/c FCFS queue (`simulate_queue`),
the percentile helper `pct`, and the data model (`Client`, `SimResult`).

Simulated times are rationals.  The random variate source
(`random.expovariate`, wrapped by `exp_time`) is modelled by an explicit
stream `Nat → ℚ` of drawn durations, consumed in exactly the order the
Python code calls `exp_time`: one draw for the initial arrival, one per
scheduled next arrival, one per service assignment.  The rate argument of
`exp_time` only shapes the distribution, so in the embedding the draw is
the stream value itself; the `rate > 0` validation of `exp_time` is
subsumed by the parameter validation of `simulate_queue`, which runs
before any draw.

`heapq` is embedded by its contract: the heap of `(finish_time,
server_index)` pairs is kept as a list sorted by the lexicographic order
Python tuples compare with, `heappush` is ordered insertion and `heappop`
removes the head (the minimum).  Python `list.pop()` on `free_servers`
removes the LAST element; `queue.pop(0)` removes the head.

The `while served < clients` loop is embedded with explicit fuel
(`runLoop`); the development proves fuel `2 * clients` always suffices,
which is the termination statement.  A `records` field accumulates the
`Client` values at assignment time (the Python `Client` objects, observable
through `c.wait` appended to `waits`), so that per-customer properties can
be stated.
-/

namespace QSim

/-- `Client` dataclass: id, arrival, service_start, service_end
(the latter two default to 0 until a server is assigned). -/
structure Client where
  id : Nat
  arrival : ℚ
  service_start : ℚ := 0
  service_end : ℚ := 0
  deriving Repr, DecidableEq

/-- `Client.wait` property: `service_start - arrival`. -/
def Client.wait (c : Client) : ℚ := c.service_start - c.arrival

/-- `Client.system_time` property: `service_end - arrival`. -/
def Client.system_time (c : Client) : ℚ := c.service_end - c.arrival

/-- `SimResult` dataclass returned by `simulate_queue`. -/
structure SimResult where
  counters : Nat
  clients : Nat
  arrival_rate : ℚ
  service_rate : ℚ
  total_time : ℚ
  avg_wait : ℚ
  max_queue : Nat
  served : Nat
  utilization : ℚ
  waits : List ℚ
  queue_max_times : List (ℚ × Nat)
  deriving Repr, DecidableEq

/-- Python `sorted` on rationals (ascending insertion sort; only the
multiset and sortedness of the output matter to `pct`). -/
def sortedQ (values : List ℚ) : List ℚ :=
  values.insertionSort (· ≤ ·)

/-- `pct(values, p)`: percentile with linear interpolation, exactly as the
source: empty input gives 0, otherwise sort, take rank `k = (p/100)*(L-1)`,
interpolate between the floor and ceiling order statistics.  In-range
indexing `s[i]` is embedded as `getD _ 0` (the claims only exercise
in-range indices). -/
def pct (values : List ℚ) (p : ℚ) : ℚ :=
  if values = [] then 0
  else
    let s := sortedQ values
    let k : ℚ := (p / 100) * ((s.length : ℚ) - 1)
    let lo : ℤ := ⌊k⌋
    let hi : ℤ := ⌈k⌉
    if lo = hi then s.getD lo.toNat 0
    else s.getD lo.toNat 0 + (s.getD hi.toNat 0 - s.getD lo.toNat 0) * (k - (lo : ℚ))

/-- The order `heapq` uses on `(finish_time, server_index)` tuples:
lexicographic, time first, server index breaking ties. -/
def hpLe (a b : ℚ × Nat) : Prop := a.1 < b.1 ∨ (a.1 = b.1 ∧ a.2 ≤ b.2)

instance : DecidableRel hpLe := fun a b => by
  unfold hpLe; infer_instance

instance : IsTotal (ℚ × Nat) hpLe where
  total a b := by
    rcases lt_trichotomy a.1 b.1 with h | h | h
    · exact Or.inl (Or.inl h)
    · rcases Nat.le_total a.2 b.2 with h2 | h2
      · exact Or.inl (Or.inr ⟨h, h2⟩)
      · exact Or.inr (Or.inr ⟨h.symm, h2⟩)
    · exact Or.inr (Or.inl h)

instance : IsTrans (ℚ × Nat) hpLe where
  trans a b c hab hbc := by
    rcases hab with h1 | ⟨e1, l1⟩
    · rcases hbc with h2 | ⟨e2, _⟩
      · exact Or.inl (h1.trans h2)
      · exact Or.inl (e2 ▸ h1)
    · rcases hbc with h2 | ⟨e2, l2⟩
      · exact Or.inl (e1 ▸ h2)
      · exact Or.inr ⟨e1.trans e2, l1.trans l2⟩

/-- `heapq.heappush`: insert keeping the heap's extraction order. -/
def heapPush (h : List (ℚ × Nat)) (x : ℚ × Nat) : List (ℚ × Nat) :=
  h.orderedInsert hpLe x

/-- `busy_heap[0][0] if busy_heap else float("inf")`: the peeked earliest
completion time; `none` is the `+inf` sentinel. -/
def nextCompletion (h : List (ℚ × Nat)) : Option ℚ :=
  h.head?.map Prod.fst

/-- The comparison `next_arrival <= next_completion` of the event loop,
with the empty-heap sentinel: any finite arrival time beats `+inf`. -/
def arrivalBeats (na : ℚ) : Option ℚ → Bool
  | none => true
  | some tc => na ≤ tc

/-- Simulation parameters after validation, plus the variate stream. -/
structure Params where
  clients : Nat
  counters : Nat
  arrival_rate : ℚ
  service_rate : ℚ
  stream : Nat → ℚ

/-- The mutable state of the event loop.  `idx` is the position of the
next unconsumed stream value; `records` keeps the `Client` values made at
assignment time. -/
structure SimState where
  t : ℚ
  next_arrival : ℚ
  idx : Nat
  queue : List Client
  busy_heap : List (ℚ × Nat)
  free_servers : List Nat
  served : Nat
  client_id : Nat
  waits : List ℚ
  max_queue : Nat
  queue_max_times : List (ℚ × Nat)
  busy_time_sum : ℚ
  records : List Client

/-- State just before the loop: `t = 0`, first arrival drawn (stream
position 0), all servers free (`list(range(counters))`), everything else
empty/zero. -/
def initState (P : Params) : SimState where
  t := 0
  next_arrival := P.stream 0
  idx := 1
  queue := []
  busy_heap := []
  free_servers := List.range P.counters
  served := 0
  client_id := 0
  waits := []
  max_queue := 0
  queue_max_times := []
  busy_time_sum := 0
  records := []

/-- One iteration of the assignment loop body: `free_servers.pop()` (from
the end), `queue.pop(0)`, set `service_start`/`service_end`, accumulate
`busy_time_sum`, append the wait, push the completion. -/
def assignOne (P : Params) (s : SimState) (serverIdx : Nat) (c : Client)
    (restQ : List Client) : SimState :=
  let serviceTime := P.stream s.idx
  let cDone : Client :=
    { c with service_start := s.t, service_end := s.t + serviceTime }
  { s with
    free_servers := s.free_servers.dropLast
    queue := restQ
    idx := s.idx + 1
    busy_time_sum := s.busy_time_sum + serviceTime
    waits := s.waits ++ [cDone.wait]
    busy_heap := heapPush s.busy_heap (cDone.service_end, serverIdx)
    records := s.records ++ [cDone] }

/-- `while free_servers and queue:` — each pass removes one queued client,
so fuel = current queue length always suffices (see `assignLoopAux_post`). -/
def assignLoopAux (P : Params) : Nat → SimState → SimState
  | 0, s => s
  | n + 1, s =>
    match s.queue, s.free_servers.getLast? with
    | c :: restQ, some serverIdx =>
      assignLoopAux P n (assignOne P s serverIdx c restQ)
    | _, _ => s

/-- The full assignment loop after an event. -/
def assignLoop (P : Params) (s : SimState) : SimState :=
  assignLoopAux P s.queue.length s

/-- The ARRIVAL branch: advance `t` to the arrival time, create the
client, append it to the queue, record a congestion milestone when the
queue length exceeds the previous peak, draw and schedule the next
arrival. -/
def arrivalTransition (P : Params) (s : SimState) : SimState :=
  let t := s.next_arrival
  let cid := s.client_id + 1
  let c : Client := { id := cid, arrival := t }
  let q := s.queue ++ [c]
  { s with
    t := t
    client_id := cid
    queue := q
    max_queue := if s.max_queue < q.length then q.length else s.max_queue
    queue_max_times :=
      if s.max_queue < q.length then s.queue_max_times ++ [(t, q.length)]
      else s.queue_max_times
    next_arrival := t + P.stream s.idx
    idx := s.idx + 1 }

/-- The COMPLETION branch: pop the heap minimum, advance `t` to its
completion time, count the served customer, free its server (appended to
the free list, so it is the next one `pop()` takes). -/
def completionTransition (s : SimState) (tc : ℚ) (serverIdx : Nat)
    (rest : List (ℚ × Nat)) : SimState :=
  { s with
    t := tc
    busy_heap := rest
    served := s.served + 1
    free_servers := s.free_servers ++ [serverIdx] }

/-- One event of the loop: ARRIVAL when
`next_arrival <= next_completion and client_id < clients`, else
COMPLETION; `none` models the `IndexError` Python would raise popping an
empty heap (proved unreachable). -/
def eventStep (P : Params) (s : SimState) : Option SimState :=
  if arrivalBeats s.next_arrival (nextCompletion s.busy_heap)
      && decide (s.client_id < P.clients) then
    some (arrivalTransition P s)
  else
    match s.busy_heap with
    | [] => none
    | (tc, serverIdx) :: rest => some (completionTransition s tc serverIdx rest)

/-- One full iteration of the main loop: one event, then the assignment
loop. -/
def step (P : Params) (s : SimState) : Option SimState :=
  (eventStep P s).map (assignLoop P)

/-- `while served < clients:` with explicit fuel. -/
def runLoop (P : Params) : Nat → SimState → Option SimState
  | 0, s => if s.served < P.clients then none else some s
  | fuel + 1, s =>
    if s.served < P.clients then
      match step P s with
      | none => none
      | some s2 => runLoop P fuel s2
    else some s

/-- Build the `SimResult` from the final state (total time, mean wait,
utilization guarded by `total_time > 0`). -/
def mkResult (P : Params) (s : SimState) : SimResult where
  counters := P.counters
  clients := P.clients
  arrival_rate := P.arrival_rate
  service_rate := P.service_rate
  total_time := s.t
  avg_wait := if s.waits = [] then 0 else s.waits.sum / (s.waits.length : ℚ)
  max_queue := s.max_queue
  served := s.served
  utilization :=
    if 0 < s.t then s.busy_time_sum / ((P.counters : ℚ) * s.t) else 0
  waits := s.waits
  queue_max_times := s.queue_max_times

/-- The core run on validated parameters: the loop needs at most
`2 * clients` iterations (one per arrival, one per completion). -/
def simCore (P : Params) : Option SimState :=
  runLoop P (2 * P.clients) (initState P)

/-- `simulate_queue`: validation (in source order), then the event loop.
`clients` and `counters` are `Int` as Python `argparse` ints can be
negative; `.error` models the raised `ValueError`s, and the unreachable
inner `none` the `IndexError` an empty-heap pop would raise. -/
def simulate_queue (clients : Int) (arrival_rate service_rate : ℚ)
    (counters : Int) (stream : Nat → ℚ) : Except String SimResult :=
  if counters < 1 then .error "counters must be >= 1"
  else if clients < 1 then .error "clients must be >= 1"
  else if arrival_rate ≤ 0 ∨ service_rate ≤ 0 then .error "rates must be > 0"
  else
    let P : Params :=
      { clients := clients.toNat, counters := counters.toNat
        arrival_rate := arrival_rate, service_rate := service_rate
        stream := stream }
    match simCore P with
    | none => .error "empty heap pop"
    | some s => .ok (mkResult P s)

end QSim

namespace QSim

/-- The loop-state invariant (established before the loop, preserved by
events and by each single server assignment). -/
structure Inv (P : Params) (s : SimState) : Prop where
  count_eq : s.client_id = s.served + s.queue.length + s.busy_heap.length
  cid_le : s.client_id ≤ P.clients
  servers_perm :
    (s.busy_heap.map Prod.snd ++ s.free_servers).Perm (List.range P.counters)
  heap_sorted : s.busy_heap.Sorted hpLe
  heap_future : ∀ x ∈ s.busy_heap, s.t ≤ x.1
  t_nonneg : 0 ≤ s.t
  arr_future : s.client_id < P.clients → s.t ≤ s.next_arrival
  queue_past : ∀ c ∈ s.queue, c.arrival ≤ s.t
  records_ok : ∀ c ∈ s.records,
    c.arrival ≤ c.service_start ∧ c.service_start ≤ c.service_end
  waits_eq : s.waits = s.records.map Client.wait
  busy_sum_eq : s.busy_time_sum =
    (s.records.map fun c => c.service_end - c.service_start).sum
  busy_nonneg : 0 ≤ s.busy_time_sum
  busy_bound : s.busy_time_sum + (s.busy_heap.length : ℚ) * s.t ≤
    (P.counters : ℚ) * s.t + (s.busy_heap.map Prod.fst).sum
  miles_snd_mono : s.queue_max_times.Pairwise fun a b => a.2 < b.2
  miles_snd_le : ∀ m ∈ s.queue_max_times, m.2 ≤ s.max_queue
  miles_fst_mono : s.queue_max_times.Pairwise fun a b => a.1 ≤ b.1
  miles_fst_le : ∀ m ∈ s.queue_max_times, m.1 ≤ s.next_arrival

/-- After the assignment loop: nobody waits while a server is free. -/
def NoIdle (s : SimState) : Prop := s.queue = [] ∨ s.free_servers = []

/-- Termination measure of the main loop: outstanding arrivals plus
outstanding completions. -/
def meas (P : Params) (s : SimState) : Nat :=
  (P.clients - s.client_id) + (P.clients - s.served)

/-- Streams whose draws are all non-negative (every value
`random.expovariate` can return). -/
def NonnegStream (P : Params) : Prop := ∀ n, 0 ≤ P.stream n

/-- Streams whose draws are all strictly positive (the almost-sure case
for `random.expovariate`). -/
def PosStream (P : Params) : Prop := ∀ n, 0 < P.stream n

/-- Server accounting: the server indices pending in the event horizon
together with the free list are exactly the configured servers
`0 .. counters-1`, each once. -/
def ServerAccounting (P : Params) (s : SimState) : Prop :=
  (s.busy_heap.map Prod.snd ++ s.free_servers).Perm (List.range P.counters)

/-- Strict monotonicity bookkeeping for the congestion milestones (holds
when every variate is positive). -/
def StrictMiles (s : SimState) : Prop :=
  s.queue_max_times.Pairwise (fun a b => a.1 < b.1) ∧
  ∀ m ∈ s.queue_max_times, m.1 < s.next_arrival

/-- Congestion milestones of a run result (empty on error). -/
def resultMiles : Except String SimResult → List (ℚ × Nat)
  | .ok r => r.queue_max_times
  | .error _ => []

/-- Did the run return a result (rather than raise)? -/
def resultOk : Except String SimResult → Bool
  | .ok _ => true
  | .error _ => false

/-- `served` of a run result (-1 on error). -/
def resultServed : Except String SimResult → Int
  | .ok r => (r.served : Int)
  | .error _ => -1

/-- `waits` of a run result (empty on error). -/
def resultWaits : Except String SimResult → List ℚ
  | .ok r => r.waits
  | .error _ => []

/-- The final loop state of a validated run (the initial state as a
placeholder when the run would fail; proved unreachable for
`counters ≥ 1`). -/
def coreState (P : Params) : SimState :=
  (simCore P).getD (initState P)

/-- The `SimResult` a validated run returns. -/
def coreResult (P : Params) : SimResult :=
  mkResult P (coreState P)

/-- Executable form of the per-customer timing facts of a service
record. -/
def recordOk (cl : Client) : Bool :=
  decide (0 ≤ cl.wait) && decide (cl.arrival ≤ cl.service_start) &&
    decide (cl.service_start ≤ cl.service_end)

/-- The constant stream of 1s (a valid non-negative, positive variate
stream), used to instantiate general theorems. -/
def oneStream : Nat → ℚ := fun _ => 1

/-- A deterministic variate stream with a zero inter-arrival draw: client
1 arrives at t = 1 and gets a service of 10; clients 2 and 3 arrive at
the same instant t = 1 (inter-arrival draws 0), so the queue peaks twice
at the same simulated time. -/
def streamC7 : Nat → ℚ
  | 0 => 1
  | 1 => 0
  | 2 => 10
  | 3 => 0
  | _ => 2

/-- Concrete parameters used to instantiate general theorems. -/
def P0 : Params :=
  { clients := 2, counters := 2, arrival_rate := 1, service_rate := 1
    stream := oneStream }

/-- A concrete mid-run state of `P0` (two busy servers, both clients
generated) satisfying the loop invariant; used to instantiate the
invariant theorems. -/
def s0 : SimState where
  t := 0
  next_arrival := 3
  idx := 5
  queue := []
  busy_heap := [(1, 0), (2, 1)]
  free_servers := []
  served := 0
  client_id := 2
  waits := [0, 0]
  max_queue := 1
  queue_max_times := [(0, 1)]
  busy_time_sum := 3
  records := [{ id := 1, arrival := 0, service_start := 0, service_end := 1 },
              { id := 2, arrival := 0, service_start := 0, service_end := 2 }]

/-- A concrete state where the next arrival and the earliest completion
are scheduled at exactly the same time (t = 5). -/
def tieState : SimState where
  t := 0
  next_arrival := 5
  idx := 1
  queue := []
  busy_heap := [(5, 0)]
  free_servers := []
  served := 0
  client_id := 1
  waits := [0]
  max_queue := 1
  queue_max_times := [(0, 1)]
  busy_time_sum := 5
  records := [{ id := 1, arrival := 0, service_start := 0, service_end := 5 }]

/-- Parameters for the tie-break scenario: one server, two clients. -/
def tieParams : Params :=
  { clients := 2, counters := 1, arrival_rate := 1, service_rate := 1
    stream := oneStream }

/-- Parameters with three servers for the LIFO free-list scenario. -/
def P10 : Params :=
  { clients := 1, counters := 3, arrival_rate := 1, service_rate := 1
    stream := oneStream }

theorem inv_init (P : Params) (h : NonnegStream P) : Inv P (initState P) := by
  constructor <;> simp [initState] <;> intros <;> exact h 0

theorem noIdle_init (P : Params) : NoIdle (initState P) := Or.inl rfl

theorem heapPush_perm (h : List (ℚ × Nat)) (x : ℚ × Nat) :
    (heapPush h x).Perm (x :: h) :=
  List.perm_orderedInsert hpLe x h

theorem heapPush_length (h : List (ℚ × Nat)) (x : ℚ × Nat) :
    (heapPush h x).length = h.length + 1 :=
  List.orderedInsert_length hpLe h x

theorem mem_heapPush {h : List (ℚ × Nat)} {x y : ℚ × Nat} :
    y ∈ heapPush h x ↔ y = x ∨ y ∈ h :=
  List.mem_orderedInsert hpLe

theorem heapPush_sorted {h : List (ℚ × Nat)} (hs : h.Sorted hpLe)
    (x : ℚ × Nat) : (heapPush h x).Sorted hpLe :=
  hs.orderedInsert x h

theorem heapPush_map_sum (h : List (ℚ × Nat)) (x : ℚ × Nat)
    (f : ℚ × Nat → ℚ) :
    ((heapPush h x).map f).sum = f x + (h.map f).sum :=
  ((heapPush_perm h x).map f).sum_eq

theorem heapPush_map_perm (h : List (ℚ × Nat)) (x : ℚ × Nat)
    {β : Type} (f : ℚ × Nat → β) :
    ((heapPush h x).map f).Perm (f x :: h.map f) :=
  (heapPush_perm h x).map f

theorem inv_assignOne (P : Params) (s : SimState) (k : Nat) (c : Client)
    (restQ : List Client) (hnn : NonnegStream P) (inv : Inv P s)
    (hq : s.queue = c :: restQ) (hf : s.free_servers.getLast? = some k) :
    Inv P (assignOne P s k c restQ) := by
  obtain ⟨ys, hys⟩ := List.getLast?_eq_some_iff.mp hf
  have hd : 0 ≤ P.stream s.idx := hnn s.idx
  have hcq : c ∈ s.queue := by rw [hq]; exact List.mem_cons_self c restQ
  have hca : c.arrival ≤ s.t := inv.queue_past c hcq
  constructor
  case count_eq =>
    have := inv.count_eq
    rw [hq] at this
    simp only [assignOne, heapPush_length]
    simp at this ⊢
    omega
  case cid_le => exact inv.cid_le
  case servers_perm =>
    have hperm := inv.servers_perm
    rw [hys] at hperm
    simp only [assignOne, hys, List.dropLast_concat]
    refine List.Perm.trans ?_ hperm
    rw [← List.append_assoc]
    exact List.Perm.trans
      ((heapPush_map_perm s.busy_heap _ Prod.snd).append_right ys)
      (List.perm_append_singleton k (s.busy_heap.map Prod.snd ++ ys)).symm
  case heap_sorted =>
    simpa only [assignOne] using heapPush_sorted inv.heap_sorted _
  case heap_future =>
    intro x hx
    simp only [assignOne] at hx ⊢
    rcases mem_heapPush.mp hx with h | h
    · subst h; simpa using hd
    · exact inv.heap_future x h
  case t_nonneg => exact inv.t_nonneg
  case arr_future => exact inv.arr_future
  case queue_past =>
    intro d hd2
    simp only [assignOne] at hd2 ⊢
    exact inv.queue_past d (by rw [hq]; exact List.mem_cons_of_mem c hd2)
  case records_ok =>
    intro d hd2
    simp only [assignOne, List.mem_append, List.mem_singleton] at hd2
    rcases hd2 with h | h
    · exact inv.records_ok d h
    · subst h
      refine ⟨hca, ?_⟩
      simpa using hd
  case waits_eq =>
    simp only [assignOne, List.map_append, inv.waits_eq, List.map_cons,
      List.map_nil]
  case busy_sum_eq =>
    simp only [assignOne, List.map_append, List.sum_append, inv.busy_sum_eq,
      List.map_cons, List.map_nil, List.sum_cons, List.sum_nil]
    ring
  case busy_nonneg =>
    simp only [assignOne]
    have := inv.busy_nonneg
    linarith
  case busy_bound =>
    have hb := inv.busy_bound
    simp only [assignOne, heapPush_length, heapPush_map_sum]
    push_cast
    push_cast at hb
    linarith
  case miles_snd_mono => exact inv.miles_snd_mono
  case miles_snd_le => exact inv.miles_snd_le
  case miles_fst_mono => exact inv.miles_fst_mono
  case miles_fst_le => exact inv.miles_fst_le

theorem assignLoopAux_inv (P : Params) (hnn : NonnegStream P) :
    ∀ (n : Nat) (s : SimState), Inv P s → Inv P (assignLoopAux P n s) := by
  intro n
  induction n with
  | zero => intro s inv; exact inv
  | succ n ih =>
    intro s inv
    rw [assignLoopAux]
    split
    · rename_i c restQ k hq hf
      exact ih _ (inv_assignOne P s k c restQ hnn inv hq hf)
    · exact inv

/-- Fields the assignment loop never touches. -/
theorem assignLoopAux_frame (P : Params) :
    ∀ (n : Nat) (s : SimState),
      (assignLoopAux P n s).served = s.served ∧
      (assignLoopAux P n s).client_id = s.client_id ∧
      (assignLoopAux P n s).next_arrival = s.next_arrival ∧
      (assignLoopAux P n s).queue_max_times = s.queue_max_times ∧
      (assignLoopAux P n s).max_queue = s.max_queue ∧
      (assignLoopAux P n s).t = s.t := by
  intro n
  induction n with
  | zero => intro s; exact ⟨rfl, rfl, rfl, rfl, rfl, rfl⟩
  | succ n ih =>
    intro s
    rw [assignLoopAux]
    split
    · rename_i c restQ k hq hf
      exact ih (assignOne P s k c restQ)
    · exact ⟨rfl, rfl, rfl, rfl, rfl, rfl⟩

/-- With enough fuel the assignment loop reaches its negated guard:
empty queue or no free server. -/
theorem assignLoopAux_post (P : Params) :
    ∀ (n : Nat) (s : SimState), s.queue.length ≤ n →
      NoIdle (assignLoopAux P n s) := by
  intro n
  induction n with
  | zero =>
    intro s h
    exact Or.inl (List.length_eq_zero.mp (Nat.le_zero.mp h))
  | succ n ih =>
    intro s h
    rw [assignLoopAux]
    split
    · rename_i c restQ k hq hf
      apply ih
      have : s.queue.length = restQ.length + 1 := by rw [hq]; rfl
      simp only [assignOne]
      omega
    · rename_i hno
      rcases hqe : s.queue with _ | ⟨c, restQ⟩
      · exact Or.inl hqe
      · rcases hfe : s.free_servers.getLast? with _ | k
        · exact Or.inr (List.getLast?_eq_none_iff.mp hfe)
        · exact (hno c restQ k hqe hfe).elim

theorem assignLoop_inv (P : Params) (hnn : NonnegStream P) (s : SimState)
    (inv : Inv P s) : Inv P (assignLoop P s) :=
  assignLoopAux_inv P hnn s.queue.length s inv

theorem assignLoop_noIdle (P : Params) (s : SimState) :
    NoIdle (assignLoop P s) :=
  assignLoopAux_post P s.queue.length s le_rfl

/-- When the loop condition `next_arrival <= next_completion` holds, the
arrival time is below every pending completion (head-minimality of the
sorted heap). -/
theorem arrivalBeats_all {h : List (ℚ × Nat)} (hs : h.Sorted hpLe) {na : ℚ}
    (hb : arrivalBeats na (nextCompletion h) = true) : ∀ x ∈ h, na ≤ x.1 := by
  intro x hx
  cases h with
  | nil => cases hx
  | cons y rest =>
    have hy : na ≤ y.1 := by
      simpa [arrivalBeats, nextCompletion] using hb
    rcases List.mem_cons.mp hx with rfl | hxt
    · exact hy
    · rcases (List.sorted_cons.mp hs).1 x hxt with hlt | ⟨heq, _⟩
      · exact hy.trans hlt.le
      · exact heq ▸ hy

/-- From the servers permutation: the busy and free counts add to the
server count. -/
theorem servers_count {P : Params} {s : SimState} (inv : Inv P s) :
    s.busy_heap.length + s.free_servers.length = P.counters := by
  have := inv.servers_perm.length_eq
  simpa using this

theorem inv_arrivalTransition (P : Params) (s : SimState)
    (hnn : NonnegStream P) (inv : Inv P s) (hcid : s.client_id < P.clients)
    (hb : arrivalBeats s.next_arrival (nextCompletion s.busy_heap) = true) :
    Inv P (arrivalTransition P s) := by
  have ht : s.t ≤ s.next_arrival := inv.arr_future hcid
  have hdraw : 0 ≤ P.stream s.idx := hnn s.idx
  have hheap : ∀ x ∈ s.busy_heap, s.next_arrival ≤ x.1 :=
    arrivalBeats_all inv.heap_sorted hb
  constructor
  case count_eq =>
    have := inv.count_eq
    simp only [arrivalTransition, List.length_append, List.length_cons,
      List.length_nil]
    omega
  case cid_le =>
    simp only [arrivalTransition]
    omega
  case servers_perm => exact inv.servers_perm
  case heap_sorted => exact inv.heap_sorted
  case heap_future => exact hheap
  case t_nonneg => exact inv.t_nonneg.trans ht
  case arr_future =>
    intro _
    simp only [arrivalTransition]
    linarith
  case queue_past =>
    intro c hc
    simp only [arrivalTransition, List.mem_append, List.mem_singleton] at hc
    rcases hc with hc | hc
    · exact (inv.queue_past c hc).trans ht
    · subst hc; exact le_rfl
  case records_ok => exact inv.records_ok
  case waits_eq => exact inv.waits_eq
  case busy_sum_eq => exact inv.busy_sum_eq
  case busy_nonneg => exact inv.busy_nonneg
  case busy_bound =>
    have hb0 := inv.busy_bound
    have hcnt := servers_count inv
    have hlen : (s.busy_heap.length : ℚ) ≤ (P.counters : ℚ) := by
      exact_mod_cast Nat.le.intro hcnt
    have hmul : (s.busy_heap.length : ℚ) * (s.next_arrival - s.t) ≤
        (P.counters : ℚ) * (s.next_arrival - s.t) :=
      mul_le_mul_of_nonneg_right hlen (by linarith)
    simp only [arrivalTransition]
    nlinarith
  case miles_snd_mono =>
    simp only [arrivalTransition]
    split
    · rename_i hlt
      rw [List.pairwise_append]
      refine ⟨inv.miles_snd_mono, List.pairwise_singleton _ _, ?_⟩
      intro m hm b hb2
      rw [List.mem_singleton] at hb2
      subst hb2
      have := inv.miles_snd_le m hm
      simp only [List.length_append, List.length_cons, List.length_nil] at hlt ⊢
      omega
    · exact inv.miles_snd_mono
  case miles_snd_le =>
    simp only [arrivalTransition]
    split
    · rename_i hlt
      intro m hm
      rcases List.mem_append.mp hm with hm | hm
      · exact (inv.miles_snd_le m hm).trans (by omega)
      · rw [List.mem_singleton] at hm; subst hm; exact le_rfl
    · exact inv.miles_snd_le
  case miles_fst_mono =>
    simp only [arrivalTransition]
    split
    · rw [List.pairwise_append]
      refine ⟨inv.miles_fst_mono, List.pairwise_singleton _ _, ?_⟩
      intro m hm b hb2
      rw [List.mem_singleton] at hb2
      subst hb2
      exact inv.miles_fst_le m hm
    · exact inv.miles_fst_mono
  case miles_fst_le =>
    simp only [arrivalTransition]
    split
    · intro m hm
      rcases List.mem_append.mp hm with hm | hm
      · have := inv.miles_fst_le m hm
        linarith
      · rw [List.mem_singleton] at hm; subst hm
        simp only
        linarith
    · intro m hm
      have := inv.miles_fst_le m hm
      linarith

theorem inv_completionTransition (P : Params) (s : SimState) (inv : Inv P s)
    (tc : ℚ) (k : Nat) (rest : List (ℚ × Nat))
    (hheap : s.busy_heap = (tc, k) :: rest)
    (harr : s.client_id < P.clients → tc ≤ s.next_arrival) :
    Inv P (completionTransition s tc k rest) := by
  have ht : s.t ≤ tc := by
    have := inv.heap_future (tc, k) (by rw [hheap]; exact List.mem_cons_self _ _)
    simpa using this
  have hsorted := inv.heap_sorted
  rw [hheap] at hsorted
  have hrest_sorted := (List.sorted_cons.mp hsorted).2
  have hrest_ge : ∀ x ∈ rest, tc ≤ x.1 := by
    intro x hx
    rcases (List.sorted_cons.mp hsorted).1 x hx with hlt | ⟨heq, _⟩
    · exact hlt.le
    · exact heq.le
  constructor
  case count_eq =>
    have := inv.count_eq
    rw [hheap] at this
    simp only [completionTransition, List.length_cons] at this ⊢
    omega
  case cid_le => exact inv.cid_le
  case servers_perm =>
    have hperm := inv.servers_perm
    rw [hheap] at hperm
    simp only [completionTransition]
    refine List.Perm.trans ?_ hperm
    simp only [List.map_cons]
    rw [← List.append_assoc]
    exact List.perm_append_singleton k (rest.map Prod.snd ++ s.free_servers)
  case heap_sorted => exact hrest_sorted
  case heap_future => exact hrest_ge
  case t_nonneg => exact inv.t_nonneg.trans ht
  case arr_future => exact harr
  case queue_past =>
    intro c hc
    exact (inv.queue_past c hc).trans ht
  case records_ok => exact inv.records_ok
  case waits_eq => exact inv.waits_eq
  case busy_sum_eq => exact inv.busy_sum_eq
  case busy_nonneg => exact inv.busy_nonneg
  case busy_bound =>
    have hb := inv.busy_bound
    rw [hheap] at hb
    have hcnt := servers_count inv
    rw [hheap] at hcnt
    have hlen : (rest.length : ℚ) + 1 ≤ (P.counters : ℚ) := by
      simp only [List.length_cons] at hcnt
      exact_mod_cast Nat.le.intro hcnt
    simp only [List.length_cons, List.map_cons, List.sum_cons] at hb
    simp only [completionTransition]
    push_cast at hb ⊢
    nlinarith [mul_le_mul_of_nonneg_right (sub_nonneg.mpr ht)
      (sub_nonneg.mpr hlen)]
  case miles_snd_mono => exact inv.miles_snd_mono
  case miles_snd_le => exact inv.miles_snd_le
  case miles_fst_mono => exact inv.miles_fst_mono
  case miles_fst_le => exact inv.miles_fst_le

theorem eventStep_inv (P : Params) (s s2 : SimState) (hnn : NonnegStream P)
    (inv : Inv P s) (h : eventStep P s = some s2) : Inv P s2 := by
  unfold eventStep at h
  split at h
  · rename_i hcond
    rw [Bool.and_eq_true, decide_eq_true_eq] at hcond
    cases h
    exact inv_arrivalTransition P s hnn inv hcond.2 hcond.1
  · rename_i hcond
    rw [Bool.and_eq_true, decide_eq_true_eq] at hcond
    split at h
    · exact absurd h (by simp)
    · rename_i tc k rest hheap
      cases h
      refine inv_completionTransition P s inv tc k rest hheap ?_
      intro hcid
      have hbf : ¬ arrivalBeats s.next_arrival
          (nextCompletion s.busy_heap) = true := fun hb => hcond ⟨hb, hcid⟩
      rw [hheap] at hbf
      have hlt : ¬ s.next_arrival ≤ tc := by
        simpa [arrivalBeats, nextCompletion] using hbf
      exact (not_le.mp hlt).le

theorem eventStep_some (P : Params) (s : SimState) (inv : Inv P s)
    (hni : NoIdle s) (hc : 1 ≤ P.counters) (hs : s.served < P.clients) :
    ∃ s2, eventStep P s = some s2 := by
  unfold eventStep
  split
  · exact ⟨_, rfl⟩
  · rename_i hcond
    rcases hheap : s.busy_heap with _ | ⟨⟨tc, k⟩, rest⟩
    · exfalso
      rw [Bool.and_eq_true, decide_eq_true_eq] at hcond
      have hbt : arrivalBeats s.next_arrival (nextCompletion s.busy_heap)
          = true := by
        rw [hheap]; rfl
      have hcid : ¬ s.client_id < P.clients := fun hlt => hcond ⟨hbt, hlt⟩
      have h1 := inv.count_eq
      have h2 := inv.cid_le
      rw [hheap] at h1
      simp only [List.length_nil] at h1
      have hqne : s.queue ≠ [] := by
        intro hq
        rw [hq] at h1
        simp at h1
        omega
      have hfree : s.free_servers = [] := hni.resolve_left hqne
      have := servers_count inv
      rw [hheap, hfree] at this
      simp at this
      omega
    · exact ⟨_, rfl⟩

theorem eventStep_meas (P : Params) (s s2 : SimState)
    (h : eventStep P s = some s2) (hs : s.served < P.clients) :
    meas P s2 < meas P s := by
  unfold eventStep at h
  split at h
  · rename_i hcond
    rw [Bool.and_eq_true, decide_eq_true_eq] at hcond
    cases h
    simp only [meas, arrivalTransition]
    omega
  · split at h
    · exact absurd h (by simp)
    · cases h
      simp only [meas, completionTransition]
      omega

theorem step_spec (P : Params) (s : SimState) (hnn : NonnegStream P)
    (hc : 1 ≤ P.counters) (inv : Inv P s) (hni : NoIdle s)
    (hs : s.served < P.clients) :
    ∃ s2, step P s = some s2 ∧ Inv P s2 ∧ NoIdle s2 ∧
      meas P s2 < meas P s := by
  obtain ⟨se, hse⟩ := eventStep_some P s inv hni hc hs
  have inve := eventStep_inv P s se hnn inv hse
  refine ⟨assignLoop P se, ?_, ?_, ?_, ?_⟩
  · rw [step, hse]; rfl
  · exact assignLoop_inv P hnn se inve
  · exact assignLoop_noIdle P se
  · have hfr := assignLoopAux_frame P se.queue.length se
    have hme := eventStep_meas P s se hse hs
    simp only [meas, assignLoop] at *
    omega

theorem runLoop_ok (P : Params) (hnn : NonnegStream P) (hc : 1 ≤ P.counters) :
    ∀ (fuel : Nat) (s : SimState), Inv P s → NoIdle s → meas P s ≤ fuel →
      ∃ sf, runLoop P fuel s = some sf ∧ Inv P sf ∧ NoIdle sf ∧
        sf.served = P.clients := by
  intro fuel
  induction fuel with
  | zero =>
    intro s inv hni hm
    have h1 := inv.count_eq
    have h2 := inv.cid_le
    simp only [meas] at hm
    have hns : ¬ s.served < P.clients := by omega
    rw [runLoop, if_neg hns]
    exact ⟨s, rfl, inv, hni, by omega⟩
  | succ fuel ih =>
    intro s inv hni hm
    rw [runLoop]
    by_cases hs : s.served < P.clients
    · obtain ⟨s2, hstep, inv2, hni2, hlt⟩ :=
        step_spec P s hnn hc inv hni hs
      rw [if_pos hs, hstep]
      exact ih s2 inv2 hni2 (by omega)
    · rw [if_neg hs]
      have h1 := inv.count_eq
      have h2 := inv.cid_le
      exact ⟨s, rfl, inv, hni, by omega⟩

/-- Any property closed under the loop body holds at the end of the run. -/
theorem runLoop_preserve (P : Params) (Q : SimState → Prop)
    (hQ : ∀ s s2, step P s = some s2 → Q s → Q s2) :
    ∀ (fuel : Nat) (s sf : SimState), Q s → runLoop P fuel s = some sf →
      Q sf := by
  intro fuel
  induction fuel with
  | zero =>
    intro s sf hq hrun
    rw [runLoop] at hrun
    split at hrun
    · exact absurd hrun (by simp)
    · cases hrun; exact hq
  | succ fuel ih =>
    intro s sf hq hrun
    rw [runLoop] at hrun
    split at hrun
    · rcases hstep : step P s with _ | s2
      · rw [hstep] at hrun; exact absurd hrun (by simp)
      · rw [hstep] at hrun
        exact ih s2 sf (hQ s s2 hstep hq) hrun
    · cases hrun; exact hq

theorem simCore_ok (P : Params) (hnn : NonnegStream P)
    (hc : 1 ≤ P.counters) :
    ∃ sf, simCore P = some sf ∧ Inv P sf ∧ NoIdle sf ∧
      sf.served = P.clients := by
  refine runLoop_ok P hnn hc (2 * P.clients) (initState P)
    (inv_init P hnn) (noIdle_init P) ?_
  simp [meas, initState]
  omega

/-- At termination the queue and the heap are both empty: every generated
customer has been served. -/
theorem final_empty (P : Params) {s : SimState} (inv : Inv P s)
    (hserved : s.served = P.clients) :
    s.queue = [] ∧ s.busy_heap = [] := by
  have h1 := inv.count_eq
  have h2 := inv.cid_le
  constructor
  · exact List.length_eq_zero.mp (by omega)
  · exact List.length_eq_zero.mp (by omega)

/-- A validated run returns `ok` built from the final loop state, which
satisfies the invariant and has served every client. -/
theorem simulate_queue_spec (N c : Int) (lam mu : ℚ)
    (stream : Nat → ℚ) (hN : 1 ≤ N) (hc : 1 ≤ c) (hlam : 0 < lam)
    (hmu : 0 < mu) (hnn : ∀ n, 0 ≤ stream n) :
    ∃ sf, simCore ⟨N.toNat, c.toNat, lam, mu, stream⟩ = some sf ∧
      Inv ⟨N.toNat, c.toNat, lam, mu, stream⟩ sf ∧
      sf.served = N.toNat ∧
      simulate_queue N lam mu c stream =
        .ok (mkResult ⟨N.toNat, c.toNat, lam, mu, stream⟩ sf) := by
  obtain ⟨sf, hrun, inv, hni, hserved⟩ :=
    simCore_ok ⟨N.toNat, c.toNat, lam, mu, stream⟩ (fun n => hnn n)
      (show 1 ≤ c.toNat by omega)
  refine ⟨sf, hrun, inv, hserved, ?_⟩
  unfold simulate_queue
  rw [if_neg (by omega), if_neg (by omega),
    if_neg (by push_neg; exact ⟨hlam, hmu⟩)]
  simp only [hrun]

/-- C1: for every valid input (target customer count N ≥ 1, arrival rate
λ > 0, service rate μ > 0, server count c ≥ 1) and every non-negative
variate stream, `simulate_queue` terminates with an `ok` result whose
`served` equals N. -/
theorem simulate_terminates_served_eq_clients (N c : Int) (lam mu : ℚ)
    (stream : Nat → ℚ) (hN : 1 ≤ N) (hc : 1 ≤ c) (hlam : 0 < lam)
    (hmu : 0 < mu) (hnn : ∀ n, 0 ≤ stream n) :
    resultOk (simulate_queue N lam mu c stream) = true ∧
    resultServed (simulate_queue N lam mu c stream) = N := by
  obtain ⟨sf, hrun, inv, hserved, heq⟩ :=
    simulate_queue_spec N c lam mu stream hN hc hlam hmu hnn
  rw [heq]
  refine ⟨rfl, ?_⟩
  simp only [resultServed, mkResult, hserved]
  omega

/-- Witness for C1: N = 2, λ = μ = 1, c = 1, all variates 1. -/
theorem simulate_terminates_witness :
    resultOk (simulate_queue 2 1 1 1 oneStream) = true ∧
    resultServed (simulate_queue 2 1 1 1 oneStream) = 2 :=
  simulate_terminates_served_eq_clients 2 1 1 1 oneStream (by norm_num)
    (by norm_num) (by norm_num) (by norm_num) (fun n => by norm_num [oneStream])

/-- C2: when the next scheduled arrival time equals the earliest pending
completion time and fewer than N arrivals have been generated, the loop
processes the ARRIVAL first: the step is the arrival transition (customer
appended to the queue, peak-congestion check applied) followed by the
assignment loop, while the completion stays pending (`busy_heap` and
`served` unchanged by the arrival). -/
theorem tie_arrival_first (P : Params) (s : SimState) (tc : ℚ)
    (htc : nextCompletion s.busy_heap = some tc)
    (htie : s.next_arrival = tc) (hcid : s.client_id < P.clients) :
    step P s = some (assignLoop P (arrivalTransition P s)) ∧
    (arrivalTransition P s).served = s.served ∧
    (arrivalTransition P s).busy_heap = s.busy_heap ∧
    (arrivalTransition P s).client_id = s.client_id + 1 ∧
    (arrivalTransition P s).queue =
      s.queue ++ [{ id := s.client_id + 1, arrival := s.next_arrival }] ∧
    (arrivalTransition P s).queue_max_times =
      (if s.max_queue < s.queue.length + 1 then
        s.queue_max_times ++ [(s.next_arrival, s.queue.length + 1)]
       else s.queue_max_times) := by
  have hb : arrivalBeats s.next_arrival (nextCompletion s.busy_heap)
      = true := by
    rw [htc, htie]
    simp [arrivalBeats]
  refine ⟨?_, rfl, rfl, rfl, rfl, ?_⟩
  · unfold step eventStep
    rw [hb]
    simp [hcid]
  · simp [arrivalTransition, List.length_append]

/-- Witness for C2 at a concrete tie: arrival and completion both at
t = 5, one arrival outstanding. -/
theorem tie_arrival_first_witness :
    step tieParams tieState =
      some (assignLoop tieParams (arrivalTransition tieParams tieState)) ∧
    (arrivalTransition tieParams tieState).served = tieState.served ∧
    (arrivalTransition tieParams tieState).busy_heap = tieState.busy_heap :=
  ⟨(tie_arrival_first tieParams tieState 5 rfl rfl (by decide)).1,
   (tie_arrival_first tieParams tieState 5 rfl rfl (by decide)).2.1,
   (tie_arrival_first tieParams tieState 5 rfl rfl (by decide)).2.2.1⟩

/-- C9: `simulate_queue` returns its `ValueError` (here `.error`) iff
target customer count < 1, server count < 1, arrival rate ≤ 0 or service
rate ≤ 0; the checks run before the event loop, and for valid inputs no
other failure mode exists: the run returns a result. -/
theorem simulate_error_iff_invalid (N c : Int) (lam mu : ℚ)
    (stream : Nat → ℚ) (hnn : ∀ n, 0 ≤ stream n) :
    resultOk (simulate_queue N lam mu c stream) = false ↔
      (N < 1 ∨ c < 1 ∨ lam ≤ 0 ∨ mu ≤ 0) := by
  constructor
  · intro h
    by_contra hval
    push_neg at hval
    obtain ⟨hN, hc, hlam, hmu⟩ := hval
    obtain ⟨sf, _, _, _, heq⟩ :=
      simulate_queue_spec N c lam mu stream (by omega) (by omega) hlam hmu hnn
    rw [heq] at h
    exact absurd h (by simp [resultOk])
  · intro h
    unfold simulate_queue
    by_cases h1 : c < 1
    · rw [if_pos h1]; rfl
    by_cases h2 : N < 1
    · rw [if_neg h1, if_pos h2]; rfl
    have h3 : lam ≤ 0 ∨ mu ≤ 0 := by tauto
    rw [if_neg h1, if_neg h2, if_pos h3]
    rfl

/-- Witness for C9: with all variates 1, an invalid server count of 0 is
rejected while the valid call from the C1 witness succeeds. -/
theorem simulate_error_iff_witness :
    resultOk (simulate_queue 2 1 1 0 oneStream) = false :=
  (simulate_error_iff_invalid 2 0 1 1 oneStream
    (fun n => by norm_num [oneStream])).mpr (by norm_num)

/-- C3: in any completed run, every recorded wait is non-negative and
every served customer has `arrival ≤ service_start ≤ service_end` (the
service start is the simulated time at assignment, never before the
arrival); the returned wait sequence is exactly the waits of the service
records. -/
theorem waits_nonneg_service_ordered (P : Params) (hnn : NonnegStream P)
    (hc : 1 ≤ P.counters) :
    (∀ w ∈ (coreState P).waits, 0 ≤ w) ∧
    (∀ cl ∈ (coreState P).records,
      0 ≤ cl.wait ∧ cl.arrival ≤ cl.service_start ∧
        cl.service_start ≤ cl.service_end) ∧
    (coreState P).waits = (coreState P).records.map Client.wait ∧
    (coreResult P).waits = (coreState P).waits := by
  obtain ⟨sf, hrun, inv, hni, hserved⟩ := simCore_ok P hnn hc
  have hcs : coreState P = sf := by rw [coreState, hrun]; rfl
  refine ⟨?_, ?_, ?_, rfl⟩ <;> rw [hcs]
  · intro w hw
    rw [inv.waits_eq] at hw
    obtain ⟨cl, hcl, rfl⟩ := List.mem_map.mp hw
    have h := inv.records_ok cl hcl
    simpa [Client.wait] using sub_nonneg.mpr h.1
  · intro cl hcl
    have h := inv.records_ok cl hcl
    exact ⟨by simpa [Client.wait] using sub_nonneg.mpr h.1, h.1, h.2⟩
  · exact inv.waits_eq

/-- Witness for C3: the two-client, two-server run with all variates 1. -/
theorem waits_nonneg_witness :
    ((coreState P0).records.all recordOk) = true := by
  obtain ⟨_, hrec, _, _⟩ := waits_nonneg_service_ordered P0
    (fun n => by norm_num [P0, oneStream]) (by norm_num [P0])
  rw [List.all_eq_true]
  intro cl hcl
  obtain ⟨h1, h2, h3⟩ := hrec cl hcl
  simp [recordOk, h1, h2, h3]

/-- C5: the utilization of a completed run lies in [0, 1]; when the total
elapsed simulated time is positive, server count × total time ×
utilization equals the sum of all service durations consumed; when the
total elapsed time is 0 the utilization is 0. -/
theorem utilization_bounds (P : Params) (hnn : NonnegStream P)
    (hc : 1 ≤ P.counters) :
    (0 ≤ (coreResult P).utilization ∧ (coreResult P).utilization ≤ 1) ∧
    (0 < (coreResult P).total_time →
      (P.counters : ℚ) * (coreResult P).total_time *
          (coreResult P).utilization =
        ((coreState P).records.map fun cl =>
          cl.service_end - cl.service_start).sum) ∧
    ((coreResult P).total_time = 0 → (coreResult P).utilization = 0) := by
  obtain ⟨sf, hrun, inv, hni, hserved⟩ := simCore_ok P hnn hc
  have hcs : coreState P = sf := by rw [coreState, hrun]; rfl
  have hheap : sf.busy_heap = [] := (final_empty P inv hserved).2
  have hbound := inv.busy_bound
  rw [hheap] at hbound
  simp only [List.length_nil, Nat.cast_zero, zero_mul, add_zero,
    List.map_nil, List.sum_nil] at hbound
  have hB0 := inv.busy_nonneg
  have ht0 := inv.t_nonneg
  have hcQ : (1 : ℚ) ≤ (P.counters : ℚ) := by exact_mod_cast hc
  have hT : (coreResult P).total_time = sf.t := by
    rw [coreResult, hcs]; rfl
  have hU : (coreResult P).utilization =
      (if 0 < sf.t then sf.busy_time_sum / ((P.counters : ℚ) * sf.t)
       else 0) := by
    rw [coreResult, hcs]; rfl
  refine ⟨⟨?_, ?_⟩, ?_, ?_⟩
  · rw [hU]
    split
    · rename_i htpos
      exact div_nonneg hB0 (by positivity)
    · exact le_rfl
  · rw [hU]
    split
    · rename_i htpos
      rw [div_le_one (by positivity)]
      linarith
    · exact zero_le_one
  · intro hpos
    rw [hT] at hpos
    rw [hT, hU, if_pos hpos, hcs]
    rw [← inv.busy_sum_eq]
    field_simp
  · intro hz
    rw [hT] at hz
    rw [hU, if_neg (by rw [hz]; exact lt_irrefl 0)]

/-- Witness for C5 at the two-client, two-server constant-1 run. -/
theorem utilization_bounds_witness :
    0 ≤ (coreResult P0).utilization ∧ (coreResult P0).utilization ≤ 1 :=
  (utilization_bounds P0 (fun n => by norm_num [P0, oneStream])
    (by norm_num [P0])).1

/-- C6: server accounting — initially, and after every event and every
single server assignment, the pending completions and the free list
together hold each configured server index exactly once (so busy + free
= counters, each busy server has exactly one pending completion, and no
index is both busy and free). -/
theorem server_accounting_invariant (P : Params) (hnn : NonnegStream P) :
    ServerAccounting P (initState P) ∧
    (∀ s s2, Inv P s → eventStep P s = some s2 → ServerAccounting P s2) ∧
    (∀ s k cl restQ, Inv P s → s.queue = cl :: restQ →
      s.free_servers.getLast? = some k →
      ServerAccounting P (assignOne P s k cl restQ)) ∧
    (∀ s, ServerAccounting P s →
      s.busy_heap.length + s.free_servers.length = P.counters ∧
      (s.busy_heap.map Prod.snd ++ s.free_servers).Nodup) := by
  refine ⟨(inv_init P hnn).servers_perm, ?_, ?_, ?_⟩
  · intro s s2 inv h
    exact (eventStep_inv P s s2 hnn inv h).servers_perm
  · intro s k cl restQ inv hq hf
    exact (inv_assignOne P s k cl restQ hnn inv hq hf).servers_perm
  · intro s hacc
    constructor
    · have := hacc.length_eq
      simpa using this
    · exact hacc.nodup_iff.mpr (List.nodup_range P.counters)

/-- Witness for C6: concrete accounting facts at the mid-run state `s0`
of `P0` (two busy servers 0 and 1, none free). -/
theorem server_accounting_witness :
    ServerAccounting P0 (initState P0) ∧
    s0.busy_heap.length + s0.free_servers.length = P0.counters ∧
    (s0.busy_heap.map Prod.snd ++ s0.free_servers).Nodup := by
  have h := server_accounting_invariant P0 (fun n => by norm_num [P0, oneStream])
  have hs0 : ServerAccounting P0 s0 := by
    rw [ServerAccounting]
    decide
  exact ⟨h.1, (h.2.2.2 s0 hs0).1, (h.2.2.2 s0 hs0).2⟩

/-- C8: the head of the event horizon is always the pending completion
minimal in the order (completion time, then server index): the invariant
keeps the heap sorted, its head is below every member — strictly earlier
time, or equal time and lower-or-equal server index — and when the heap
is empty the peeked completion time is the `+inf` sentinel, which any
finite arrival time beats. -/
theorem heap_min_and_sentinel (P : Params) :
    (∀ s, Inv P s → ∀ y, s.busy_heap.head? = some y →
      ∀ x ∈ s.busy_heap, y.1 < x.1 ∨ (y.1 = x.1 ∧ y.2 ≤ x.2)) ∧
    nextCompletion [] = none ∧
    (∀ na : ℚ, arrivalBeats na (nextCompletion []) = true) := by
  refine ⟨?_, rfl, fun na => rfl⟩
  intro s inv y hy x hx
  rcases hheap : s.busy_heap with _ | ⟨z, rest⟩
  · rw [hheap] at hy; cases hy
  · rw [hheap] at hy
    simp only [List.head?_cons, Option.some_inj] at hy
    subst hy
    have hsorted := inv.heap_sorted
    rw [hheap] at hsorted
    rw [hheap] at hx
    rcases List.mem_cons.mp hx with rfl | hxr
    · exact Or.inr ⟨rfl, le_rfl⟩
    · exact (List.sorted_cons.mp hsorted).1 x hxr

/-- Witness for C8: at the concrete invariant state `s0` the head (1, 0)
of the horizon beats the other pending completion (2, 1); the sentinel
lets the arrival at time 7 proceed on an empty horizon. -/
theorem heap_min_witness :
    ((1 : ℚ), (0 : Nat)).1 < ((2 : ℚ), (1 : Nat)).1 ∨
      (((1 : ℚ), (0 : Nat)).1 = ((2 : ℚ), (1 : Nat)).1 ∧
        ((1 : ℚ), (0 : Nat)).2 ≤ ((2 : ℚ), (1 : Nat)).2) ∧
    arrivalBeats 7 (nextCompletion []) = true := by
  have h := heap_min_and_sentinel P0
  have hinv : Inv P0 s0 := by
    constructor <;>
      first
        | decide
        | (simp only [s0, P0, Client.wait, List.map_cons, List.map_nil]
           norm_num)
  exact Or.inl (by
    have := h.1 s0 hinv (1, 0) rfl (2, 1) (by decide)
    rcases this with h1 | ⟨h1, _⟩
    · exact h1
    · exact absurd h1 (by norm_num))

/-- Length is preserved by the sort `pct` uses. -/
theorem sortedQ_length (values : List ℚ) :
    (sortedQ values).length = values.length :=
  List.length_insertionSort _ values

/-- C4: `pct` computes, for any non-empty sample list S and p in
[0, 100], `S_sorted[⌊k⌋] + (S_sorted[⌈k⌉] − S_sorted[⌊k⌋]) · (k − ⌊k⌋)`
with `k = (p/100)·(|S| − 1)`; in particular `pct [1,2,3,4] 50 = 5/2`,
`pct [5] p = 5` for every p, and `pct [] p = 0` for every p rather than
failing. -/
theorem pct_interpolation :
    (∀ (S : List ℚ) (p : ℚ), S ≠ [] → 0 ≤ p → p ≤ 100 →
      pct S p =
        (sortedQ S).getD (⌊(p / 100) * ((S.length : ℚ) - 1)⌋).toNat 0 +
          ((sortedQ S).getD (⌈(p / 100) * ((S.length : ℚ) - 1)⌉).toNat 0 -
            (sortedQ S).getD (⌊(p / 100) * ((S.length : ℚ) - 1)⌋).toNat 0) *
            ((p / 100) * ((S.length : ℚ) - 1) -
              ((⌊(p / 100) * ((S.length : ℚ) - 1)⌋ : ℤ) : ℚ))) ∧
    pct [1, 2, 3, 4] 50 = 5 / 2 ∧
    (∀ p : ℚ, pct [5] p = 5) ∧
    (∀ p : ℚ, pct [] p = 0) := by
  refine ⟨?_, ?_, ?_, ?_⟩
  · intro S p hne h0 h100
    rw [pct, if_neg hne]
    simp only [sortedQ_length]
    split
    · rename_i heq
      rw [← heq]
      ring
    · rfl
  · have h2 : ⌈(3 : ℚ) / 2⌉ = 2 := by
      rw [Int.ceil_eq_iff]
      norm_num
    have h3 : Int.toNat 2 = 2 := rfl
    rw [pct, if_neg (by simp)]
    simp only [sortedQ_length]
    norm_num [h2, h3, sortedQ, List.insertionSort, List.orderedInsert]
  · intro p
    rw [pct, if_neg (by simp)]
    simp only [sortedQ_length]
    norm_num [sortedQ, List.insertionSort, List.orderedInsert]
  · intro p
    rw [pct, if_pos rfl]

/-- Witness for C4: the interpolation formula instantiated at
S = [1,2,3,4], p = 50. -/
theorem pct_interpolation_witness :
    pct [1, 2, 3, 4] 50 =
      (sortedQ [1, 2, 3, 4]).getD
          (⌊((50 : ℚ) / 100) *
            ((([1, 2, 3, 4] : List ℚ).length : ℚ) - 1)⌋).toNat 0 +
        ((sortedQ [1, 2, 3, 4]).getD
            (⌈((50 : ℚ) / 100) *
              ((([1, 2, 3, 4] : List ℚ).length : ℚ) - 1)⌉).toNat 0 -
          (sortedQ [1, 2, 3, 4]).getD
            (⌊((50 : ℚ) / 100) *
              ((([1, 2, 3, 4] : List ℚ).length : ℚ) - 1)⌋).toNat 0) *
          (((50 : ℚ) / 100) * ((([1, 2, 3, 4] : List ℚ).length : ℚ) - 1) -
            ((⌊((50 : ℚ) / 100) *
              ((([1, 2, 3, 4] : List ℚ).length : ℚ) - 1)⌋ : ℤ) : ℚ)) :=
  pct_interpolation.1 [1, 2, 3, 4] 50 (by simp) (by norm_num) (by norm_num)

/-- C10: the free-server list is used as a LIFO stack (`pop()` takes the
last element), so from the all-free initial state the first customer is
assigned server `counters - 1`: after the first loop iteration the event
horizon holds exactly the completion `(stream 0 + stream 2, counters - 1)`
— not server 0 whenever `counters ≥ 2`. -/
theorem first_assignment_lifo (P : Params) (hc : 1 ≤ P.counters)
    (hN : 1 ≤ P.clients) :
    ((step P (initState P)).map SimState.busy_heap) =
      some [(P.stream 0 + P.stream 2, P.counters - 1)] ∧
    (2 ≤ P.counters → P.counters - 1 ≠ 0) := by
  obtain ⟨m, hm⟩ := Nat.exists_eq_succ_of_ne_zero (by omega : P.counters ≠ 0)
  have hlast : (List.range P.counters).getLast? = some (P.counters - 1) := by
    rw [hm, List.range_succ, List.getLast?_concat]
    simp
  refine ⟨?_, by omega⟩
  have hb : arrivalBeats (initState P).next_arrival
      (nextCompletion (initState P).busy_heap) = true := rfl
  have hcid : decide ((initState P).client_id < P.clients) = true := by
    simp [initState]
    omega
  unfold step eventStep
  rw [hb, hcid]
  simp only [Bool.and_self, if_true, Option.map_some, Option.some_inj]
  simp [assignLoop, arrivalTransition, initState, assignLoopAux, hlast,
    assignOne, heapPush, List.orderedInsert]

/-- Witness for C10: with three servers the first customer is served by
server 2, not server 0. -/
theorem first_assignment_lifo_witness :
    ((step P10 (initState P10)).map SimState.busy_heap) =
      some [(P10.stream 0 + P10.stream 2, P10.counters - 1)] ∧
    P10.counters - 1 ≠ 0 :=
  ⟨(first_assignment_lifo P10 (by norm_num [P10]) (by norm_num [P10])).1,
   (first_assignment_lifo P10 (by norm_num [P10]) (by norm_num [P10])).2
     (by norm_num [P10])⟩

/-- With strictly positive variates, every loop iteration preserves the
strict-milestone bookkeeping (milestone times strictly increasing and all
strictly below the next scheduled arrival). -/
theorem strictMiles_step (P : Params) (hpos : PosStream P)
    (s s2 : SimState) (h : step P s = some s2) (hs : StrictMiles s) :
    StrictMiles s2 := by
  unfold step at h
  rcases he : eventStep P s with _ | se
  · rw [he] at h
    exact absurd h (by simp)
  · rw [he] at h
    have h2 : assignLoop P se = s2 := by simpa using h
    subst h2
    have hse : StrictMiles se := by
      unfold eventStep at he
      split at he
      · rename_i hcond
        cases he
        constructor
        · simp only [arrivalTransition]
          split
          · rw [List.pairwise_append]
            refine ⟨hs.1, List.pairwise_singleton _ _, ?_⟩
            intro m hm b hb
            rw [List.mem_singleton] at hb
            subst hb
            exact hs.2 m hm
          · exact hs.1
        · simp only [arrivalTransition]
          have hd := hpos s.idx
          split
          · intro m hm
            rcases List.mem_append.mp hm with hm | hm
            · have := hs.2 m hm
              linarith
            · rw [List.mem_singleton] at hm
              subst hm
              linarith
          · intro m hm
            have := hs.2 m hm
            linarith
      · split at he
        · exact absurd he (by simp)
        · cases he
          exact hs
    have hfr := assignLoopAux_frame P se.queue.length se
    constructor
    · rw [assignLoop, hfr.2.2.2.1]
      exact hse.1
    · intro m hm
      rw [assignLoop, hfr.2.2.2.1] at hm
      rw [assignLoop, hfr.2.2.1]
      exact hse.2 m hm

/-- With strictly positive variates the final state keeps strictly
increasing milestone times. -/
theorem strictMiles_final (P : Params) (hpos : PosStream P)
    (sf : SimState) (h : simCore P = some sf) : StrictMiles sf := by
  refine runLoop_preserve P StrictMiles
    (fun s s2 hstep hq => strictMiles_step P hpos s s2 hstep hq)
    (2 * P.clients) (initState P) sf ?_ h
  exact ⟨List.Pairwise.nil, fun m hm => absurd hm (List.not_mem_nil m)⟩

/-- C7 (amended): in the returned congestion milestone list the queue
lengths are strictly increasing; the times are non-decreasing for every
non-negative variate stream, and strictly increasing whenever every
variate drawn is strictly positive (an inter-arrival draw of exactly 0 —
possible for `random.expovariate` — makes two milestones share a time). -/
theorem queue_max_times_monotone (P : Params) (hnn : NonnegStream P)
    (hc : 1 ≤ P.counters) :
    ((coreResult P).queue_max_times.Pairwise fun a b => a.2 < b.2) ∧
    ((coreResult P).queue_max_times.Pairwise fun a b => a.1 ≤ b.1) ∧
    (PosStream P →
      (coreResult P).queue_max_times.Pairwise fun a b => a.1 < b.1) := by
  obtain ⟨sf, hrun, inv, hni, hserved⟩ := simCore_ok P hnn hc
  have hmr : (coreResult P).queue_max_times = sf.queue_max_times := by
    rw [coreResult, coreState, hrun]
    rfl
  rw [hmr]
  refine ⟨inv.miles_snd_mono, inv.miles_fst_mono, ?_⟩
  intro hpos
  exact (strictMiles_final P hpos sf hrun).1

/-- Witness for the amended C7 at the two-client, two-server constant-1
run (strictly positive variates, so both components strictly
increase). -/
theorem queue_max_times_monotone_witness :
    ((coreResult P0).queue_max_times.Pairwise fun a b => a.2 < b.2) ∧
    ((coreResult P0).queue_max_times.Pairwise fun a b => a.1 < b.1) := by
  have h := queue_max_times_monotone P0
    (fun n => by norm_num [P0, oneStream]) (by norm_num [P0])
  exact ⟨h.1, h.2.2 (fun n => by norm_num [P0, oneStream])⟩

/-- Counterexample to C7 as stated: with the variate stream `streamC7`
(a zero inter-arrival draw), the run returns the milestone list
[(1, 1), (1, 2)] — the queue peaks twice at the same simulated time, so
the times are not strictly increasing between consecutive milestones. -/
theorem queue_max_times_not_strict :
    resultMiles (simulate_queue 3 1 1 1 streamC7) = [(1, 1), (1, 2)] ∧
    ¬ (resultMiles (simulate_queue 3 1 1 1 streamC7)).Chain'
        (fun a b => a.1 < b.1 ∧ a.2 < b.2) := by
  have hr1 : List.range 1 = [0] := rfl
  have heval : resultMiles (simulate_queue 3 1 1 1 streamC7)
      = [(1, 1), (1, 2)] := by
    norm_num [resultMiles, simulate_queue, simCore, runLoop, step, eventStep,
      arrivalTransition, completionTransition, assignLoop, assignLoopAux,
      assignOne, initState, heapPush, nextCompletion, arrivalBeats, streamC7,
      List.orderedInsert, mkResult, Client.wait, hr1]
  refine ⟨heval, ?_⟩
  rw [heval]
  rw [List.chain'_cons]
  intro hcon
  exact absurd hcon.1.1 (lt_irrefl (1 : ℚ))
